import Mathlib

/-!
Verification development for the sauos automation engine
(`src/sauos/core/image.py`, `src/sauos/ai/vision.py`, `src/sauos/ai/agent.py`,
`src/sauos/scheduler.py`).

The Python code is shallowly embedded: pure functions become Lean functions,
loops become structural recursions, machine floats become exact rationals
(`ℚ`), Python exceptions become `Option`/fallback values.  Side-effecting
collaborators (OpenCV template matching, the LLM transport, the OS input
layer, wall-clock sleeps) are passed in as explicit function parameters or
recorded as symbolic trace events.
-/

/-- JSON values as produced by Python's `json.loads`.  Objects are modelled as
key/value lists in parse order (Python dicts preserve insertion order);
numbers are modelled as exact rationals. -/
inductive Json where
  | null : Json
  | bool (b : Bool) : Json
  | num (q : ℚ) : Json
  | str (s : String) : Json
  | arr (xs : List Json) : Json
  | obj (kvs : List (String × Json)) : Json

/-- JSON whitespace characters (RFC 8259, also what `json.loads` skips). -/
def isJsonWs (c : Char) : Bool :=
  c = ' ' || c = '\t' || c = '\n' || c = '\r'

/-- Drop leading JSON whitespace. -/
def skipWs : List Char → List Char
  | [] => []
  | c :: cs => if isJsonWs c then skipWs cs else c :: cs

/-- Characters that may begin a JSON value. -/
def jsonStartChar (c : Char) : Bool :=
  c = '\x7b' || c = '[' || c = '"' || c = 't' || c = 'f' || c = 'n' ||
    c = '-' || c.isDigit

/-- Numeric value of a list of decimal digit characters. -/
def digitsToNat (ds : List Char) : Nat :=
  ds.foldl (fun n c => 10 * n + (c.toNat - 48)) 0

/-- Parse the digit run at the head of the input. -/
def spanDigits (cs : List Char) : List Char × List Char :=
  cs.span Char.isDigit

/-- Parse the JSON number grammar `int frac? exp?` starting at a digit run
(after an optional minus sign has been consumed by the caller).
`json.loads` forbids leading zeros: an initial `0` ends the integer part. -/
def parseNumTail (cs : List Char) : Option (ℚ × List Char) :=
  match cs with
  | [] => none
  | c :: rest =>
    if ¬ c.isDigit then none
    else
      let (intDs, afterInt) :=
        if c = '0' then ([c], rest)
        else spanDigits (c :: rest)
      let intVal : ℚ := (digitsToNat intDs : ℚ)
      -- optional fraction
      let fracStep : Option (ℚ × List Char) :=
        match afterInt with
        | '.' :: fs =>
          let (fds, afterFrac) := spanDigits fs
          if fds.isEmpty then none
          else some (intVal + (digitsToNat fds : ℚ) / ((10 : ℚ) ^ fds.length), afterFrac)
        | _ => some (intVal, afterInt)
      match fracStep with
      | none => none
      | some (v, afterFrac) =>
        -- optional exponent
        match afterFrac with
        | e :: es =>
          if e = 'e' ∨ e = 'E' then
            let (sign, es') :=
              match es with
              | '+' :: t => ((1 : ℤ), t)
              | '-' :: t => ((-1 : ℤ), t)
              | t => ((1 : ℤ), t)
            let (eds, afterExp) := spanDigits es'
            if eds.isEmpty then none
            else some (v * (10 : ℚ) ^ (sign * (digitsToNat eds : ℤ)), afterExp)
          else some (v, afterFrac)
        | [] => some (v, [])

/-- Parse a JSON number, including an optional leading minus sign. -/
def parseNum (cs : List Char) : Option (ℚ × List Char) :=
  match cs with
  | '-' :: rest => (parseNumTail rest).map (fun p => (-p.1, p.2))
  | _ => parseNumTail cs

/-- Hex digit value. -/
def hexVal (c : Char) : Option Nat :=
  if c.isDigit then some (c.toNat - 48)
  else if 'a' ≤ c ∧ c ≤ 'f' then some (c.toNat - 87)
  else if 'A' ≤ c ∧ c ≤ 'F' then some (c.toNat - 55)
  else none

/-- Parse the body of a JSON string (the opening quote already consumed).
Returns the decoded characters and the input after the closing quote.
Control characters below 0x20 are rejected, as in strict-mode `json.loads`;
`\uXXXX` escapes decode one code unit (surrogate pairing is not modelled). -/
def parseStrBody : Nat → List Char → Option (List Char × List Char)
  | 0, _ => none
  | _ + 1, [] => none
  | fuel + 1, c :: cs =>
    if c = '"' then some ([], cs)
    else if c = '\\' then
      match cs with
      | [] => none
      | e :: cs' =>
        if e = '"' ∨ e = '\\' ∨ e = '/' then
          (parseStrBody fuel cs').map (fun p => (e :: p.1, p.2))
        else if e = 'b' then (parseStrBody fuel cs').map (fun p => ('\x08' :: p.1, p.2))
        else if e = 'f' then (parseStrBody fuel cs').map (fun p => ('\x0c' :: p.1, p.2))
        else if e = 'n' then (parseStrBody fuel cs').map (fun p => ('\n' :: p.1, p.2))
        else if e = 'r' then (parseStrBody fuel cs').map (fun p => ('\r' :: p.1, p.2))
        else if e = 't' then (parseStrBody fuel cs').map (fun p => ('\t' :: p.1, p.2))
        else if e = 'u' then
          match cs' with
          | h1 :: h2 :: h3 :: h4 :: cs'' =>
            match hexVal h1, hexVal h2, hexVal h3, hexVal h4 with
            | some v1, some v2, some v3, some v4 =>
              let code := ((v1 * 16 + v2) * 16 + v3) * 16 + v4
              (parseStrBody fuel cs'').map (fun p => (Char.ofNat code :: p.1, p.2))
            | _, _, _, _ => none
          | _ => none
        else none
    else if c.toNat < 32 then none
    else (parseStrBody fuel cs).map (fun p => (c :: p.1, p.2))

mutual

/-- Parse one JSON value (leading whitespace allowed), returning the value and
the unconsumed input.  Fuel-indexed; every recursive call strictly decreases
the fuel, and `jsonLoads` supplies enough fuel for its input. -/
def parseVal : Nat → List Char → Option (Json × List Char)
  | 0, _ => none
  | fuel + 1, cs =>
    match skipWs cs with
    | [] => none
    | c :: rest =>
      if c = '\x7b' then parseObjStart fuel rest
      else if c = '[' then parseArrStart fuel rest
      else if c = '"' then
        (parseStrBody fuel rest).map (fun p => (Json.str (String.mk p.1), p.2))
      else if c = 't' then
        if ("rue").toList.isPrefixOf rest then some (Json.bool true, rest.drop 3) else none
      else if c = 'f' then
        if ("alse").toList.isPrefixOf rest then some (Json.bool false, rest.drop 4) else none
      else if c = 'n' then
        if ("ull").toList.isPrefixOf rest then some (Json.null, rest.drop 3) else none
      else (parseNum (c :: rest)).map (fun p => (Json.num p.1, p.2))

/-- Object body right after `{`: either `}` or the first member. -/
def parseObjStart : Nat → List Char → Option (Json × List Char)
  | 0, _ => none
  | fuel + 1, cs =>
    match skipWs cs with
    | '\x7d' :: rest => some (Json.obj [], rest)
    | other => parseObjMember fuel other []

/-- One `"key" : value` member, then a separator. -/
def parseObjMember : Nat → List Char → List (String × Json) → Option (Json × List Char)
  | 0, _, _ => none
  | fuel + 1, cs, acc =>
    match skipWs cs with
    | '"' :: rest =>
      match parseStrBody fuel rest with
      | none => none
      | some (key, afterKey) =>
        match skipWs afterKey with
        | ':' :: afterColon =>
          match parseVal fuel afterColon with
          | none => none
          | some (v, afterVal) =>
            parseObjMore fuel afterVal ((String.mk key, v) :: acc)
        | _ => none
    | _ => none

/-- After a member: `,` continues, `}` closes. -/
def parseObjMore : Nat → List Char → List (String × Json) → Option (Json × List Char)
  | 0, _, _ => none
  | fuel + 1, cs, acc =>
    match skipWs cs with
    | '\x7d' :: rest => some (Json.obj acc.reverse, rest)
    | ',' :: rest => parseObjMember fuel rest acc
    | _ => none

/-- Array body right after `[`: either `]` or the first element. -/
def parseArrStart : Nat → List Char → Option (Json × List Char)
  | 0, _ => none
  | fuel + 1, cs =>
    match skipWs cs with
    | ']' :: rest => some (Json.arr [], rest)
    | other =>
      match parseVal fuel other with
      | none => none
      | some (v, afterVal) => parseArrMore fuel afterVal [v]

/-- After an element: `,` continues, `]` closes. -/
def parseArrMore : Nat → List Char → List Json → Option (Json × List Char)
  | 0, _, _ => none
  | fuel + 1, cs, acc =>
    match skipWs cs with
    | ']' :: rest => some (Json.arr acc.reverse, rest)
    | ',' :: rest =>
      match parseVal fuel rest with
      | none => none
      | some (v, afterVal) => parseArrMore fuel afterVal (v :: acc)
    | _ => none

end

/-- `json.loads`: parse one JSON document; anything but trailing whitespace
after the value is an error ("Extra data"). -/
def jsonLoads (cs : List Char) : Option Json :=
  match parseVal (cs.length + 1) cs with
  | none => none
  | some (v, rest) => if skipWs rest = [] then some v else none

/-! ## Vision module: `VisionAnalyzer.plan_action` (src/sauos/ai/vision.py) -/

/-- Python whitespace as stripped by `str.strip()`. -/
def isPyWs (c : Char) : Bool :=
  c = ' ' || c = '\t' || c = '\n' || c = '\r' || c = '\x0b' || c = '\x0c'

/-- Python `str.strip()`: remove leading and trailing whitespace. -/
def pyStrip (cs : List Char) : List Char :=
  ((cs.dropWhile isPyWs).reverse.dropWhile isPyWs).reverse

/-- Python `needle in haystack` (substring containment). -/
def containsSeq (sep : List Char) : List Char → Bool
  | [] => sep.isPrefixOf []
  | c :: cs => sep.isPrefixOf (c :: cs) || containsSeq sep cs

/-- Worker for Python `str.split(sep)` with a non-empty separator
`s0 :: srest`; `acc` holds the current chunk reversed.  The recursion is
structural on a fuel argument so the function evaluates inside the kernel;
every step consumes at least one input character, so fuel equal to the
input length (supplied by `pySplit`) is always enough and the fuel-out arm
is unreachable. -/
def splitGo (s0 : Char) (srest : List Char) :
    List Char → ℕ → List Char → List (List Char)
  | acc, _, [] => [acc.reverse]
  | acc, 0, l => [acc.reverse ++ l]
  | acc, fuel + 1, c :: cs =>
    if (s0 :: srest).isPrefixOf (c :: cs) then
      acc.reverse :: splitGo s0 srest [] fuel (cs.drop srest.length)
    else
      splitGo s0 srest (c :: acc) fuel cs

/-- Python `str.split(sep)` for a non-empty separator (the only way the
source uses it). -/
def pySplit (sep : List Char) (l : List Char) : List (List Char) :=
  match sep with
  | [] => [l]
  | s0 :: srest => splitGo s0 srest [] l.length l

/-- The fence marker with language tag, ```` ```json ````. -/
def jsonFenceSep : List Char := ("```json").toList

/-- The bare fence marker, ```` ``` ````. -/
def fenceSep : List Char := ("```").toList

/-- Fence handling of `plan_action` (vision.py lines 258-262): if the text
contains ```` ```json ````, take what follows its first occurrence up to the
next ```` ``` ````; otherwise if it contains ```` ``` ````, take the chunk
between the first two occurrences (re-splitting that chunk is the source's
redundant `[0]` step); otherwise the text itself. -/
def extractContent (content : List Char) : List Char :=
  if containsSeq jsonFenceSep content then
    ((pySplit fenceSep (((pySplit jsonFenceSep content).getD 1 []))).headD [])
  else if containsSeq fenceSep content then
    ((pySplit fenceSep (((pySplit fenceSep content).getD 1 []))).headD [])
  else content

/-- The fallback plan dictionary returned by `plan_action` when
`json.loads` raises (vision.py lines 266-271): analysis is the raw response
text, `can_proceed` is false and the action type is `"error"`. -/
def fallbackObj (content : List Char) : List (String × Json) :=
  [("analysis", Json.str (String.mk content)),
   ("can_proceed", Json.bool false),
   ("action", Json.obj [("type", Json.str "error")]),
   ("reason", Json.str "无法解析AI响应")]

/-- `VisionAnalyzer.plan_action`, from the LLM response text to the returned
plan dictionary: fence extraction, whitespace strip, `json.loads`, and the
fallback dictionary on a parse error. -/
def plan_action (content : List Char) : Json :=
  match jsonLoads (pyStrip (extractContent content)) with
  | some v => v
  | none => Json.obj (fallbackObj content)

/-! ## Locator: `ImageMatcher` (src/sauos/core/image.py)

The OpenCV correlation step (`cv2.matchTemplate`) is an external
collaborator: its raster of scores enters the embedding as data (a list of
scan points for `find_all`, a best score and location for `find`), and
everything the Python code does with those scores is embedded exactly. -/

/-- `MatchResult` (image.py lines 19-36): integer geometry, rational
confidence. -/
structure MatchResult where
  x : ℤ
  y : ℤ
  width : ℤ
  height : ℤ
  confidence : ℚ
deriving DecidableEq, Repr

/-- `ImageMatcher._iou` (image.py lines 248-263). -/
def iou (m1 m2 : MatchResult) : ℚ :=
  let x1 := max m1.x m2.x
  let y1 := max m1.y m2.y
  let x2 := min (m1.x + m1.width) (m2.x + m2.width)
  let y2 := min (m1.y + m1.height) (m2.y + m2.height)
  if x2 ≤ x1 ∨ y2 ≤ y1 then 0
  else
    let inter := (x2 - x1) * (y2 - y1)
    let area1 := m1.width * m1.height
    let area2 := m2.width * m2.height
    let uni := area1 + area2 - inter
    -- `intersection / union` as exact integer division into ℚ
    if 0 < uni then Rat.divInt inter uni else 0

/-- Stable insertion of `m` in front of the first element whose confidence is
not above `m`'s: together with `sortByConfDesc` this is Python's stable
`sort(key=confidence, reverse=True)`. -/
def insertByConf (m : MatchResult) : List MatchResult → List MatchResult
  | [] => [m]
  | x :: xs =>
    if x.confidence ≤ m.confidence then m :: x :: xs
    else x :: insertByConf m xs

/-- Python `sorted(key=lambda m: m.confidence, reverse=True)` (stable). -/
def sortByConfDesc (l : List MatchResult) : List MatchResult :=
  l.foldr insertByConf []

/-- The `while matches:` loop of `ImageMatcher._nms` (image.py lines
239-244): keep the head of the (sorted) list, drop every later candidate
whose IoU with it is NOT below the overlap threshold, recurse.  Structural
on a fuel argument (each step shortens the list, so fuel equal to the list
length — supplied by `_nms` — is always enough and the fuel-out arm is
unreachable). -/
def nmsLoop (thr : ℚ) : ℕ → List MatchResult → List MatchResult
  | _, [] => []
  | 0, l => l
  | fuel + 1, current :: rest =>
    current :: nmsLoop thr fuel (rest.filter (fun m => iou current m < thr))

/-- `ImageMatcher._nms` (image.py lines 229-246): sort by confidence
descending, then greedy suppression. -/
def nms (cands : List MatchResult) (overlapThreshold : ℚ) : List MatchResult :=
  nmsLoop overlapThreshold (sortByConfDesc cands).length (sortByConfDesc cands)

/-- Python `threshold = threshold or self.threshold` (image.py lines 80, 131,
182): `None` and the falsy float `0.0` both select the instance default. -/
def pyOrQ (threshold : Option ℚ) (dflt : ℚ) : ℚ :=
  match threshold with
  | none => dflt
  | some v => if v = 0 then dflt else v

/-- One cell of the correlation raster handed back by `cv2.matchTemplate`:
a location and its score. -/
structure ScanPoint where
  x : ℤ
  y : ℤ
  conf : ℚ
deriving DecidableEq, Repr

/-- The 0.5 overlap threshold passed to `_nms` (image.py line 156), written
with `mkRat` so that closed instances evaluate inside the kernel. -/
def overlapHalf : ℚ := mkRat 1 2

/-- `overlapHalf` is one half. -/
theorem overlapHalf_eq : overlapHalf = 1 / 2 := by
  norm_num [overlapHalf, Rat.mkRat_eq_div]

/-- `ImageMatcher.find_all` (image.py lines 115-161) from the correlation
raster on: resolve the threshold, keep the locations scoring at least the
threshold as `MatchResult`s with the template's size, apply `_nms` with
overlap threshold 0.5, sort by confidence descending, truncate to
`max_results`. -/
def find_all (scan : List ScanPoint) (w h : ℤ) (threshold : Option ℚ)
    (dfltThreshold : ℚ) (maxResults : ℕ) : List MatchResult :=
  let thr := pyOrQ threshold dfltThreshold
  let cands := (scan.filter (fun p => thr ≤ p.conf)).map
    (fun p => MatchResult.mk p.x p.y w h p.conf)
  let suppressed := nms cands overlapHalf
  (sortByConfDesc suppressed).take maxResults

/-- `ImageMatcher.find` (image.py lines 64-113) from the correlation result
on, for the default `TM_CCOEFF_NORMED` method: the best score and its
location come from `cv2.minMaxLoc`; a result is returned iff the confidence
reaches the resolved threshold. -/
def find (bestConf : ℚ) (bestLoc : ℤ × ℤ) (w h : ℤ) (threshold : Option ℚ)
    (dfltThreshold : ℚ) : Option MatchResult :=
  let thr := pyOrQ threshold dfltThreshold
  if thr ≤ bestConf then
    some (MatchResult.mk bestLoc.1 bestLoc.2 w h bestConf)
  else none

/-- The scale loop of `ImageMatcher.find_multiscale` (image.py lines
188-202).  `confAt`/`locAt` are the matcher collaborator's best score and
location for the template resized to each scale; `tw`/`th` are the
template's width and height.  A scale whose resized dimension truncates
below 1 is skipped; the best strictly-improving confidence wins, starting
from 0. -/
def multiscaleLoop (tw th : ℤ) (confAt : ℚ → ℚ) (locAt : ℚ → ℤ × ℤ)
    (thr dflt : ℚ) : List ℚ → Option MatchResult → ℚ → Option MatchResult
  | [], best, _ => best
  | s :: rest, best, bestConf =>
    let nw : ℤ := ⌊(tw : ℚ) * s⌋
    let nh : ℤ := ⌊(th : ℚ) * s⌋
    if nw < 1 ∨ nh < 1 then multiscaleLoop tw th confAt locAt thr dflt rest best bestConf
    else
      match find (confAt s) (locAt s) nw nh (some thr) dflt with
      | some m =>
        if bestConf < m.confidence then
          multiscaleLoop tw th confAt locAt thr dflt rest (some m) m.confidence
        else multiscaleLoop tw th confAt locAt thr dflt rest best bestConf
      | none => multiscaleLoop tw th confAt locAt thr dflt rest best bestConf

/-- `ImageMatcher.find_multiscale` (image.py lines 163-202): resolve the
threshold once, then run the scale loop (each `self.find` call receives the
resolved threshold and re-resolves it). -/
def find_multiscale (tw th : ℤ) (confAt : ℚ → ℚ) (locAt : ℚ → ℤ × ℤ)
    (scales : List ℚ) (threshold : Option ℚ) (dfltThreshold : ℚ) :
    Option MatchResult :=
  let thr := pyOrQ threshold dfltThreshold
  multiscaleLoop tw th confAt locAt thr dfltThreshold scales none 0

/-! Spec-side definitions for the refinement claims.  These follow the
SPEC's words (spec.md §4.2 `find_all`), not the source, and exist to be
compared with the embedding above. -/

/-- Modelled from the spec: greedy suppression that discards a candidate only
when its IoU with the kept one EXCEEDS 0.5 ("discard any other candidate
whose Intersection-over-Union (IoU) with it exceeds 0.5").  Fuel-structural
like `nmsLoop`. -/
def nmsLoopSpecStrict : ℕ → List MatchResult → List MatchResult
  | _, [] => []
  | 0, l => l
  | fuel + 1, current :: rest =>
    current ::
      nmsLoopSpecStrict fuel (rest.filter (fun m => ¬ (overlapHalf < iou current m)))

/-- Modelled from the spec, as amended: greedy suppression discarding a
candidate when its IoU with the kept one is at least 0.5. -/
def nmsLoopSpecGe : ℕ → List MatchResult → List MatchResult
  | _, [] => []
  | 0, l => l
  | fuel + 1, current :: rest =>
    current ::
      nmsLoopSpecGe fuel (rest.filter (fun m => ¬ (overlapHalf ≤ iou current m)))

/-- Modelled from the spec: the `find_all` pipeline in the spec's words with
the strict (exceeds-0.5) discard rule — collect above-threshold candidates,
sort by confidence descending, greedily suppress, truncate to
`max_results`. -/
def find_all_spec_strict (scan : List ScanPoint) (w h : ℤ)
    (threshold : Option ℚ) (dfltThreshold : ℚ) (maxResults : ℕ) :
    List MatchResult :=
  let thr := pyOrQ threshold dfltThreshold
  let cands := (scan.filter (fun p => thr ≤ p.conf)).map
    (fun p => MatchResult.mk p.x p.y w h p.conf)
  (nmsLoopSpecStrict (sortByConfDesc cands).length (sortByConfDesc cands)).take
    maxResults

/-- Modelled from the spec, as amended: the same pipeline with the
at-least-0.5 discard rule. -/
def find_all_spec_ge (scan : List ScanPoint) (w h : ℤ) (threshold : Option ℚ)
    (dfltThreshold : ℚ) (maxResults : ℕ) : List MatchResult :=
  let thr := pyOrQ threshold dfltThreshold
  let cands := (scan.filter (fun p => thr ≤ p.conf)).map
    (fun p => MatchResult.mk p.x p.y w h p.conf)
  (nmsLoopSpecGe (sortByConfDesc cands).length (sortByConfDesc cands)).take
    maxResults

/-! ## Agent Loop: `AIAgent` (src/sauos/ai/agent.py)

Wall-clock timing, screenshot persistence and the observer hooks are
side-effect-only and are not modelled; the decision source (`plan_action`'s
result for each step) and the action executor are explicit parameters. -/

/-- `ActionType` (agent.py lines 18-26). -/
inductive ActionType where
  | click | type | scroll | hotkey | wait | done | error
deriving DecidableEq, Repr

/-- Python `dict.get(k)` on a parsed JSON object.  Note: the parser keeps
duplicate keys in parse order while a Python dict would keep only the last
one; no duplicate keys occur in this development. -/
def jGet (o : List (String × Json)) (k : String) : Option Json :=
  o.lookup k

/-- Python `dict.get(k, dflt)`. -/
def jGetD (o : List (String × Json)) (k : String) (dflt : Json) : Json :=
  (jGet o k).getD dflt

/-- Python truthiness of a JSON value (`bool(x)`). -/
def Json.truthy : Json → Bool
  | .null => false
  | .bool b => b
  | .num q => q ≠ 0
  | .str s => s ≠ ""
  | .arr xs => ¬ xs.isEmpty
  | .obj kvs => ¬ kvs.isEmpty

/-- `ActionType(action_type_str)` with `ValueError ↦ ERROR` (agent.py lines
201-206): any value other than one of the seven member strings becomes
`error`. -/
def toActionType (j : Json) : ActionType :=
  match j with
  | .str s =>
    if s = "click" then .click
    else if s = "type" then .type
    else if s = "scroll" then .scroll
    else if s = "hotkey" then .hotkey
    else if s = "wait" then .wait
    else if s = "done" then .done
    else .error
  | _ => .error

/-- `Action` (agent.py lines 29-40): the tagged type plus the raw JSON
payload fields exactly as `_parse_action` copies them out of the plan. -/
structure AgentAction where
  type : ActionType
  target : Option Json
  x : Option Json
  y : Option Json
  text : Option Json
  keys : Option Json
  direction : Option Json
  duration : Option Json
  reason : Json

/-- `AIAgent._parse_action` (agent.py lines 198-218).  Returns `none` when
the plan's `"action"` value exists but is not an object — in Python that is
an uncaught `AttributeError` escaping `run`. -/
def parse_action (plan : List (String × Json)) : Option AgentAction :=
  match jGetD plan ("action") (Json.obj []) with
  | Json.obj ad =>
    some
      { type := toActionType (jGetD ad ("type") (Json.str "error"))
        target := jGet ad ("target")
        x := jGet ad ("x")
        y := jGet ad ("y")
        text := jGet ad ("text")
        keys := jGet ad ("keys")
        direction := jGet ad ("direction")
        duration := jGet ad ("duration")
        reason := jGetD plan ("reason") (Json.str "") }
  | _ => none

/-- `StepResult` (agent.py lines 43-51), without the timing and screenshot
bookkeeping fields. -/
structure StepRec where
  step : ℕ
  action : AgentAction
  success : Bool
  error : Option String

/-- `TaskResult` of the agent (agent.py lines 54-61), without the timing
field.  `finalMessage` is whatever JSON value `plan.get("reason", ...)`
produced. -/
structure AgentRunResult where
  success : Bool
  steps : List StepRec
  finalMessage : Json

/-- The agent's collaborators and configuration for one run: the step
budget, the parsed plan returned by the decision source at each step, the
action executor's failure behaviour (`none` = no exception), and the
external cancellation requests (`cancelSignal k` = some caller invoked
`cancel()` between the start of the run and the check at the top of loop
iteration `k`). -/
structure AgentEnv where
  maxSteps : ℕ
  plans : ℕ → Json
  execErr : ℕ → AgentAction → Option String
  cancelSignal : ℕ → Bool

/-- Final message on cancellation (agent.py line 126). -/
def cancelMsg : Json := Json.str "任务被取消"

/-- Final message when `max_steps` is exhausted (agent.py line 191). -/
def maxStepsMsg (n : ℕ) : Json :=
  Json.str ("达到最大步数限制(" ++ toString n ++ ")")

/-- The `for step in range(self.max_steps)` loop of `AIAgent.run` (agent.py
lines 124-191): `flag` is the current value of `self._cancelled`, `rem` the
remaining iterations, `acc` the reversed step log.  Each iteration ORs in
any cancel request that arrived before its boundary check, stops on the
flag, obtains and parses the plan, stops on `done` or on
`error`/`can_proceed`-falsy, otherwise executes the action (recording an
executor exception in the step result) and appends the `StepResult`.
Returns `none` when `_parse_action` crashes. -/
def agentGo (env : AgentEnv) : Bool → ℕ → ℕ → List StepRec → Option AgentRunResult
  | _, _, 0, acc => some ⟨false, acc.reverse, maxStepsMsg env.maxSteps⟩
  | flag, step, rem + 1, acc =>
    let flag' := flag || env.cancelSignal step
    if flag' then some ⟨false, acc.reverse, cancelMsg⟩
    else
      match env.plans step with
      | Json.obj plan =>
        match parse_action plan with
        | none => none
        | some a =>
          if a.type = ActionType.done then
            some ⟨true, acc.reverse, jGetD plan ("reason") (Json.str "任务完成")⟩
          else if a.type = ActionType.error ∨
              (jGetD plan ("can_proceed") (Json.bool true)).truthy = false then
            some ⟨false, acc.reverse, jGetD plan ("reason") (Json.str "无法继续执行")⟩
          else
            let e := env.execErr step a
            agentGo env flag' (step + 1) rem (⟨step, a, e.isNone, e⟩ :: acc)
      | _ => none

/-- `AIAgent.run` (agent.py lines 106-196).  `run` begins with
`self._cancelled = False` (line 117), so the flag value left over from
before the run — `cancelledBeforeRun` — is overwritten before the loop ever
reads it. -/
def agent_run (env : AgentEnv) (cancelledBeforeRun : Bool) : Option AgentRunResult :=
  let reset := false
  agentGo env reset 0 env.maxSteps []

/-- A plan that parses to an executable action: a well-formed object whose
action is neither `done` nor `error` and which does not signal inability to
proceed.  On such a plan one loop iteration always reaches the execution
phase. -/
def planExecutable (j : Json) : Bool :=
  match j with
  | Json.obj plan =>
    match parse_action plan with
    | some a =>
      a.type ≠ ActionType.done && a.type ≠ ActionType.error &&
        (jGetD plan ("can_proceed") (Json.bool true)).truthy
    | none => false
  | _ => false

/-! ## Scheduler: `TaskScheduler` (src/sauos/scheduler.py)

The automation handle is opaque: a task's condition evaluates to a fixed
boolean and its action's outcome is a function of the attempt number.
Wall-clock sleeps and the condition/action invocations are recorded as
symbolic trace events so the claims about "how many times" and "in which
order" are about the trace. -/

/-- `TaskStatus` (scheduler.py lines 17-24). -/
inductive TaskStatus where
  | pending | running | completed | failed | skipped | cancelled
deriving DecidableEq, Repr

/-- One task as the scheduler sees it: `condition` present/value,
`retry_count`, `retry_delay`, and the action's outcome on each attempt
(`none` = returns `attemptVal`, `some e` = raises `e`).  The unused
`timeout` field and the `on_success`/`on_failure` hooks (side-effect only)
are not modelled. -/
structure STask where
  name : String
  hasCondition : Bool
  conditionVal : Bool
  retryCount : ℕ
  retryDelay : ℚ
  attemptErr : ℕ → Option String
  attemptVal : ℕ → ℤ

/-- Observable events of a scheduler run: a condition evaluation, an action
invocation (task index, attempt number), a `time.sleep(retry_delay)`. -/
inductive SEv where
  | condCheck (taskIdx : ℕ) (val : Bool)
  | invoke (taskIdx attempt : ℕ)
  | sleep (taskIdx : ℕ) (delay : ℚ)
deriving DecidableEq, Repr

/-- The task index an event belongs to. -/
def SEv.taskIdx : SEv → ℕ
  | .condCheck i _ => i
  | .invoke i _ => i
  | .sleep i _ => i

/-- `TaskResult` of the scheduler (scheduler.py lines 27-38), without the
timing field. -/
structure STaskResult where
  taskName : String
  status : TaskStatus
  result : Option ℤ
  error : Option String
deriving DecidableEq, Repr

/-- `TaskResult.success` (scheduler.py lines 36-38). -/
def STaskResult.success (r : STaskResult) : Bool :=
  r.status = TaskStatus.completed

/-- The retry loop of `TaskScheduler._execute_task` (scheduler.py lines
172-197): `for attempt in range(task.retry_count + 1)`.  `attempt` is the
current attempt number, `remaining` the attempts left (initially
`retry_count + 1`), `lastError` the last exception seen.  On success the
loop returns `completed` immediately; on failure it sleeps `retry_delay`
iff further attempts remain; exhausted retries yield `failed` with the last
error (lines 199-210). -/
def retryGo (idx : ℕ) (t : STask) (lastError : Option String) :
    ℕ → ℕ → STaskResult × List SEv
  | _, 0 => (⟨t.name, TaskStatus.failed, none, lastError⟩, [])
  | attempt, remaining + 1 =>
    match t.attemptErr attempt with
    | none =>
      (⟨t.name, TaskStatus.completed, some (t.attemptVal attempt), none⟩,
        [SEv.invoke idx attempt])
    | some e =>
      let sleeps := if remaining ≠ 0 then [SEv.sleep idx t.retryDelay] else []
      let rec' := retryGo idx t (some e) (attempt + 1) remaining
      (rec'.1, SEv.invoke idx attempt :: (sleeps ++ rec'.2))

/-- `TaskScheduler._execute_task` (scheduler.py lines 158-210): a present
and false condition short-circuits to `skipped` without invoking the
action; otherwise the retry loop runs. -/
def executeTask (idx : ℕ) (t : STask) : STaskResult × List SEv :=
  if t.hasCondition && !t.conditionVal then
    (⟨t.name, TaskStatus.skipped, none, none⟩, [SEv.condCheck idx t.conditionVal])
  else
    let condEvs := if t.hasCondition then [SEv.condCheck idx t.conditionVal] else []
    let r := retryGo idx t none 0 (t.retryCount + 1)
    (r.1, condEvs ++ r.2)

/-- The `for task in self.tasks` loop of `TaskScheduler.run` (scheduler.py
lines 143-153): before each task the cancellation flag (ORed with any
external `cancel()` that arrived before the check) is consulted; after a
task whose result is not a success, `stop_on_error` breaks the loop —
after appending that task's result. -/
def schedGo (stopOnError : Bool) (cancelSignal : ℕ → Bool) :
    Bool → ℕ → List STask → List STaskResult × List SEv
  | _, _, [] => ([], [])
  | flag, idx, t :: ts =>
    let flag' := flag || cancelSignal idx
    if flag' then ([], [])
    else
      let r := executeTask idx t
      if !r.1.success && stopOnError then (r.1 :: [], r.2)
      else
        let rest := schedGo stopOnError cancelSignal flag' (idx + 1) ts
        (r.1 :: rest.1, r.2 ++ rest.2)

/-- `TaskScheduler.run` (scheduler.py lines 129-156): the run begins with
`self._cancelled = False` (line 140), so the flag value left over from
before the run — `cancelledBeforeRun` — is overwritten before the loop ever
reads it. -/
def scheduler_run (tasks : List STask) (stopOnError : Bool)
    (cancelledBeforeRun : Bool) (cancelSignal : ℕ → Bool) :
    List STaskResult × List SEv :=
  let reset := false
  schedGo stopOnError cancelSignal reset 0 tasks

/-! ## Claim theorems -/

/-- C9: passing an explicit threshold of 0.0 to `find`, `find_all` or
`find_multiscale` does not use 0.0 as the threshold: the falsy-or on
image.py lines 80/131/182 replaces it by the instance default, so the call
behaves exactly as if no threshold had been passed, and a best match whose
confidence is below the default is not returned even though every
confidence is ≥ 0. -/
theorem threshold_zero_uses_default
    (bestConf : ℚ) (bestLoc : ℤ × ℤ) (w h : ℤ) (dflt : ℚ)
    (scan : List ScanPoint) (maxResults : ℕ)
    (tw th : ℤ) (confAt : ℚ → ℚ) (locAt : ℚ → ℤ × ℤ) (scales : List ℚ) :
    find bestConf bestLoc w h (some 0) dflt = find bestConf bestLoc w h none dflt ∧
    find_all scan w h (some 0) dflt maxResults =
      find_all scan w h none dflt maxResults ∧
    find_multiscale tw th confAt locAt scales (some 0) dflt =
      find_multiscale tw th confAt locAt scales none dflt ∧
    (bestConf < dflt → find bestConf bestLoc w h (some 0) dflt = none) := by
  have hp : pyOrQ (some 0) dflt = pyOrQ none dflt := by simp [pyOrQ]
  refine ⟨?_, ?_, ?_, ?_⟩
  · simp only [find, hp]
  · simp only [find_all, hp]
  · simp only [find_multiscale, hp]
  · intro hlt
    have hz : pyOrQ (some 0) dflt = dflt := by simp [pyOrQ]
    simp only [find, hz]
    rw [if_neg (not_le.mpr hlt)]

/-- C9 witness: with instance default 0.8 and a best confidence of 0.5
(which is ≥ 0), an explicit threshold of 0.0 behaves like no threshold and
returns no match. -/
theorem threshold_zero_uses_default_witness :
    ((1 : ℚ) / 2 < 8 / 10) ∧ find (1 / 2) (0, 0) 3 2 (some 0) (8 / 10) = none := by
  refine ⟨by norm_num, ?_⟩
  exact (threshold_zero_uses_default (1 / 2) (0, 0) 3 2 (8 / 10) [] 0 0 0
    (fun _ => 0) (fun _ => (0, 0)) []).2.2.2 (by norm_num)

/-- C10: both `AIAgent.run` and `TaskScheduler.run` reset the cancellation
flag to false on entry (agent.py line 117, scheduler.py line 140), so a
`cancel()` issued before the run begins is discarded: the run behaves
exactly as if the pre-run flag had never been set, and only cancel requests
arriving after the run has started (the `cancelSignal` schedule) can
produce a cancelled outcome. -/
theorem cancel_before_run_is_discarded (env : AgentEnv) (tasks : List STask)
    (stopOnError : Bool) (sig : ℕ → Bool) :
    agent_run env true = agent_run env false ∧
    scheduler_run tasks stopOnError true sig =
      scheduler_run tasks stopOnError false sig :=
  ⟨rfl, rfl⟩

/-- The retry loop under an always-failing action: with `remaining + 1`
attempts left starting at attempt number `attempt`, it fails with the error
of the last attempt, and its trace is one invocation per attempt with a
sleep after every attempt but the last. -/
theorem retryGo_all_fail (idx : ℕ) (t : STask)
    (hfail : ∀ a, (t.attemptErr a).isSome = true) :
    ∀ (remaining attempt : ℕ) (lastError : Option String),
      retryGo idx t lastError attempt (remaining + 1) =
        (⟨t.name, TaskStatus.failed, none, t.attemptErr (attempt + remaining)⟩,
          (List.range' attempt (remaining + 1)).flatMap
            (fun a => SEv.invoke idx a ::
              (if a < attempt + remaining then [SEv.sleep idx t.retryDelay] else []))) := by
  intro remaining
  induction remaining with
  | zero =>
    intro attempt lastError
    obtain ⟨e, he⟩ := Option.isSome_iff_exists.mp (hfail attempt)
    simp [retryGo, he, List.range']
  | succ rm ih =>
    intro attempt lastError
    obtain ⟨e, he⟩ := Option.isSome_iff_exists.mp (hfail attempt)
    have hrange : List.range' attempt (rm + 1 + 1) =
        attempt :: List.range' (attempt + 1) (rm + 1) :=
      List.range'_succ attempt (rm + 1) 1
    have harith : attempt + 1 + rm = attempt + (rm + 1) := by omega
    have hunf : retryGo idx t lastError attempt (rm + 1 + 1) =
        ((retryGo idx t (some e) (attempt + 1) (rm + 1)).1,
          SEv.invoke idx attempt ::
            ([SEv.sleep idx t.retryDelay] ++
              (retryGo idx t (some e) (attempt + 1) (rm + 1)).2)) := by
      simp only [retryGo, he]
      simp
    rw [hunf, ih (attempt + 1) (some e), harith, hrange]
    simp only [List.flatMap_cons,
      if_pos (show attempt < attempt + (rm + 1) by omega)]
    simp

/-- C6: a task whose condition is absent or true and whose action fails on
every invocation is invoked exactly `retry_count + 1` times with a
`retry_delay` sleep between consecutive invocations, and produces a
`failed` result recording the last error (scheduler.py lines 158-210). -/
theorem retry_exhaustion (idx : ℕ) (t : STask)
    (hcond : t.hasCondition = false ∨ t.conditionVal = true)
    (hfail : ∀ a, (t.attemptErr a).isSome = true) :
    executeTask idx t =
      (⟨t.name, TaskStatus.failed, none, t.attemptErr t.retryCount⟩,
        (if t.hasCondition then [SEv.condCheck idx t.conditionVal] else []) ++
          (List.range (t.retryCount + 1)).flatMap
            (fun a => SEv.invoke idx a ::
              (if a < t.retryCount then [SEv.sleep idx t.retryDelay] else []))) := by
  have hskip : (t.hasCondition && !t.conditionVal) = false := by
    rcases hcond with h | h <;> simp [h]
  have hloop := retryGo_all_fail idx t hfail t.retryCount 0 none
  simp only [Nat.zero_add] at hloop
  rw [executeTask, if_neg (by simp [hskip]), hloop]
  rw [List.range_eq_range']

/-- C6 witness: a task with `retry_count = 2` and an always-failing action
is invoked exactly three times, sleeping between consecutive invocations,
and fails with the last error. -/
theorem retry_exhaustion_witness :
    executeTask 0 ⟨"t", false, true, 2, 1, fun _ => some "boom", fun _ => 0⟩ =
      (⟨"t", TaskStatus.failed, none, some "boom"⟩,
        [SEv.invoke 0 0, SEv.sleep 0 1, SEv.invoke 0 1, SEv.sleep 0 1,
          SEv.invoke 0 2]) := by
  rw [retry_exhaustion 0 ⟨"t", false, true, 2, 1, fun _ => some "boom", fun _ => 0⟩
    (Or.inl rfl) (fun _ => rfl)]
  rfl

/-- Unpack `planExecutable` into its components. -/
theorem planExecutable_elim {j : Json} (h : planExecutable j = true) :
    ∃ plan a, j = Json.obj plan ∧ parse_action plan = some a ∧
      a.type ≠ ActionType.done ∧ a.type ≠ ActionType.error ∧
      (jGetD plan ("can_proceed") (Json.bool true)).truthy = true := by
  cases j with
  | obj plan =>
    cases hpa : parse_action plan with
    | none => simp [planExecutable, hpa] at h
    | some a =>
      simp only [planExecutable, hpa, Bool.and_eq_true, decide_eq_true_eq,
        bne_iff_ne, ne_eq] at h
      exact ⟨plan, a, rfl, hpa, h.1.1, h.1.2, h.2⟩
  | null => simp [planExecutable] at h
  | bool b => simp [planExecutable] at h
  | num q => simp [planExecutable] at h
  | str s => simp [planExecutable] at h
  | arr xs => simp [planExecutable] at h

/-- One loop iteration on an executable plan reaches the execution phase and
recurses with the step appended. -/
theorem agentGo_step (env : AgentEnv) (step rm : ℕ) (acc : List StepRec)
    (hsig : env.cancelSignal step = false)
    (plan : List (String × Json)) (a : AgentAction)
    (hplan : env.plans step = Json.obj plan)
    (hpa : parse_action plan = some a)
    (hdone : a.type ≠ ActionType.done) (herr : a.type ≠ ActionType.error)
    (hcp : (jGetD plan ("can_proceed") (Json.bool true)).truthy = true) :
    agentGo env false step (rm + 1) acc =
      agentGo env false (step + 1) rm
        (⟨step, a, (env.execErr step a).isNone, env.execErr step a⟩ :: acc) := by
  simp only [agentGo, hsig, Bool.or_false, hplan, hpa]
  rw [if_neg (by simp), if_neg hdone, if_neg (by simp [herr, hcp])]

/-- When no cancel request arrives and every remaining plan is executable,
the loop runs through its whole budget and exhausts, appending one step per
iteration. -/
theorem agentGo_exhaust (env : AgentEnv) (hsig : ∀ i, env.cancelSignal i = false) :
    ∀ (rem step : ℕ) (acc : List StepRec),
      (∀ i, step ≤ i → i < step + rem → planExecutable (env.plans i) = true) →
      ∃ tail, agentGo env false step rem acc =
          some ⟨false, acc.reverse ++ tail, maxStepsMsg env.maxSteps⟩ ∧
        tail.length = rem := by
  intro rem
  induction rem with
  | zero =>
    intro step acc _
    exact ⟨[], by simp [agentGo], rfl⟩
  | succ rm ih =>
    intro step acc hexec
    obtain ⟨plan, a, hplan, hpa, hdone, herr, hcp⟩ :=
      planExecutable_elim (hexec step (le_refl step) (by omega))
    rw [agentGo_step env step rm acc (hsig step) plan a hplan hpa hdone herr hcp]
    obtain ⟨tail, hgo, hlen⟩ := ih (step + 1)
      (⟨step, a, (env.execErr step a).isNone, env.execErr step a⟩ :: acc)
      (fun i h1 h2 => hexec i (by omega) (by omega))
    refine ⟨⟨step, a, (env.execErr step a).isNone, env.execErr step a⟩ :: tail,
      ?_, by simp [hlen]⟩
    rw [hgo]
    simp

/-- C4: for every `N`, running the Agent Loop with `max_steps = N` against a
decision source whose every plan parses to an executable action (never
`done`, never `error`, never signalling inability to proceed) and with no
cancel request produces exactly `N` step results and the exhausted outcome:
unsuccessful, with the max-steps final message (agent.py lines 124-191). -/
theorem max_steps_exhaustion (N : ℕ) (plans : ℕ → Json)
    (execErr : ℕ → AgentAction → Option String) (b : Bool)
    (hexec : ∀ k, k < N → planExecutable (plans k) = true) :
    (agent_run ⟨N, plans, execErr, fun _ => false⟩ b).map
      (fun r => (r.success, r.steps.length, r.finalMessage)) =
      some (false, N, maxStepsMsg N) := by
  obtain ⟨tail, hgo, hlen⟩ :=
    agentGo_exhaust ⟨N, plans, execErr, fun _ => false⟩ (fun _ => rfl) N 0 []
      (fun i h1 h2 => hexec i (by omega))
  rw [agent_run, hgo]
  simp [hlen]

/-- A concrete executable plan: a well-formed click action produced by the
plan parser itself. -/
def clickPlanText : List Char :=
  ("\x7b\"analysis\":\"a\",\"can_proceed\":true,\"action\":\x7b\"type\":\"click\",\"x\":10,\"y\":20\x7d,\"reason\":\"r\"\x7d").toList

/-- C4 witness: with `max_steps = 2` and a decision source that always
returns a parsed click plan, the run has exactly 2 step results and the
max-steps message. -/
theorem max_steps_exhaustion_witness :
    (agent_run ⟨2, fun _ => plan_action clickPlanText, fun _ _ => none, fun _ => false⟩ true).map
      (fun r => (r.success, r.steps.length, r.finalMessage)) =
      some (false, 2, maxStepsMsg 2) :=
  max_steps_exhaustion 2 (fun _ => plan_action clickPlanText)
    (fun _ _ => none) true (fun k _ => rfl)

/-- If the cancellation flag is set, or some cancel request arrives at a
boundary no later than `k`, and every plan strictly before `k` is
executable, the loop stops with the cancelled message having executed only
steps with index below `k`. -/
theorem agentGo_cancel (env : AgentEnv) (k : ℕ) :
    ∀ (rem step : ℕ) (acc : List StepRec) (flag : Bool),
      step ≤ k → k < step + rem →
      (flag = true ∨ ∃ j, step ≤ j ∧ j ≤ k ∧ env.cancelSignal j = true) →
      (∀ i, step ≤ i → i < k → planExecutable (env.plans i) = true) →
      (∀ s ∈ acc, s.step < k) →
      ∃ steps, agentGo env flag step rem acc =
          some ⟨false, steps, cancelMsg⟩ ∧ ∀ s ∈ steps, s.step < k := by
  intro rem
  induction rem with
  | zero => intro step acc flag h1 h2 _ _ _; omega
  | succ rm ih =>
    intro step acc flag hsk hkr hcanc hexec hacc
    by_cases hflag : (flag || env.cancelSignal step) = true
    · refine ⟨acc.reverse, ?_, fun s hs => hacc s (by simpa using hs)⟩
      simp [agentGo, hflag]
    · have hor : (flag || env.cancelSignal step) = false :=
        Bool.eq_false_iff.mpr hflag
      obtain ⟨hf, hss⟩ := Bool.or_eq_false_iff.mp hor
      rcases hcanc with hc | ⟨j, hj1, hj2, hj3⟩
      · rw [hc] at hf; exact absurd hf (by simp)
      have hjs : j ≠ step := fun h => by rw [h] at hj3; rw [hss] at hj3; exact absurd hj3 (by simp)
      have hsk' : step < k := by omega
      obtain ⟨plan, a, hplan, hpa, hdone, herr, hcp⟩ :=
        planExecutable_elim (hexec step (le_refl _) hsk')
      rw [hf, agentGo_step env step rm acc hss plan a hplan hpa hdone herr hcp]
      exact ih (step + 1)
        (⟨step, a, (env.execErr step a).isNone, env.execErr step a⟩ :: acc) false
        (by omega) (by omega) (Or.inr ⟨j, by omega, hj2, hj3⟩)
        (fun i h1 h2 => hexec i (by omega) h2)
        (by
          intro s hs
          rcases List.mem_cons.mp hs with h | h
          · rw [h]; exact hsk'
          · exact hacc s h)

/-- C5: if a cancel request is issued after the run has started and before
step `k` begins (at a boundary `j ≤ k`), and the decision source would have
kept the run going up to step `k`, then no step with index ≥ `k` is ever
executed and the run terminates with the cancelled status; the flag is
consulted only at the boundary check at the top of each iteration
(agent.py lines 124-127, 325-327). -/
theorem cancel_stops_before_step (N : ℕ) (plans : ℕ → Json)
    (execErr : ℕ → AgentAction → Option String) (sig : ℕ → Bool) (b : Bool)
    (k j : ℕ) (hj : j ≤ k) (hsig : sig j = true) (hk : k < N)
    (hexec : ∀ i, i < k → planExecutable (plans i) = true) :
    (agent_run ⟨N, plans, execErr, sig⟩ b).map
      (fun r => (r.success, r.finalMessage, r.steps.all (fun s => s.step < k))) =
      some (false, cancelMsg, true) := by
  obtain ⟨steps, hgo, hlt⟩ := agentGo_cancel ⟨N, plans, execErr, sig⟩ k N 0 [] false
    (by omega) (by omega) (Or.inr ⟨j, by omega, hj, hsig⟩)
    (fun i _ h2 => hexec i h2) (by simp)
  rw [agent_run, hgo]
  simp only [Option.map_some', Option.some.injEq, Prod.mk.injEq, List.all_eq_true,
    decide_eq_true_eq]
  exact ⟨trivial, trivial, fun s hs => hlt s hs⟩

/-- C5 witness: a cancel request arriving before step 2 of a 5-step-budget
run against an always-click decision source yields a cancelled run whose
executed steps all have index below 2. -/
theorem cancel_stops_before_step_witness :
    (agent_run ⟨5, fun _ => plan_action clickPlanText, fun _ _ => none,
        fun i => i == 2⟩ false).map
      (fun r => (r.success, r.finalMessage, r.steps.all (fun s => s.step < 2))) =
      some (false, cancelMsg, true) :=
  cancel_stops_before_step 5 (fun _ => plan_action clickPlanText)
    (fun _ _ => none) (fun i => i == 2) false 2 2 (le_refl 2) rfl
    (by omega) (fun i _ => rfl)

/-- A response text with no extractable JSON. -/
def badPlanText : List Char := ("no json here").toList

/-- C3 counterexample: with a 3-step budget and a decision source whose
step-0 plan text carries no JSON, the run ends immediately with the parse
fallback's reason and with ZERO step results — the parse failure is not
recorded as a failed step and the loop does not continue (agent.py lines
163-166 break out of the loop on the fallback's `error` action). -/
theorem unparsable_plan_not_a_failed_step :
    (agent_run ⟨3, fun _ => plan_action badPlanText, fun _ _ => none,
        fun _ => false⟩ false).map
      (fun r => (r.success, r.steps.length, r.finalMessage)) =
      some (false, 0, Json.str ("无法解析AI响应")) := rfl

/-- Reaching a fallback (unparsable) plan at step `j` stops the loop with
the fallback's reason, having appended no step for `j`. -/
theorem agentGo_fallback_stop (env : AgentEnv) (j : ℕ) (t : List Char)
    (hsig : ∀ i, env.cancelSignal i = false)
    (hbad : env.plans j = Json.obj (fallbackObj t)) :
    ∀ (rem step : ℕ) (acc : List StepRec),
      step ≤ j → j < step + rem →
      (∀ i, step ≤ i → i < j → planExecutable (env.plans i) = true) →
      ∃ steps, agentGo env false step rem acc =
          some ⟨false, steps, Json.str ("无法解析AI响应")⟩ ∧
        steps.length = acc.length + (j - step) := by
  intro rem
  induction rem with
  | zero => intro step acc h1 h2 _; omega
  | succ rm ih =>
    intro step acc hsj hjr hexec
    by_cases hstep : step = j
    · subst hstep
      refine ⟨acc.reverse, ?_, by simp⟩
      simp only [agentGo, hsig step, Bool.or_false, hbad]
      rfl
    · have hsj' : step < j := by omega
      obtain ⟨plan, a, hplan, hpa, hdone, herr, hcp⟩ :=
        planExecutable_elim (hexec step (le_refl _) hsj')
      rw [agentGo_step env step rm acc (hsig step) plan a hplan hpa hdone herr hcp]
      obtain ⟨steps, hgo, hlen⟩ := ih (step + 1)
        (⟨step, a, (env.execErr step a).isNone, env.execErr step a⟩ :: acc)
        (by omega) (by omega) (fun i h1 h2 => hexec i (by omega) h2)
      refine ⟨steps, hgo, ?_⟩
      rw [hlen]
      simp only [List.length_cons]
      omega

/-- C3 amended: when the plan text for step `j` carries no extractable or
valid JSON, the parse fallback (`can_proceed` false, action type `error`)
makes the Agent Loop ABORT the run at step `j`: the run ends unsuccessfully
with the fallback's reason, exactly the `j` earlier steps are recorded, and
no failed step is recorded for `j` — the loop does not continue. -/
theorem unparsable_plan_aborts_run (N : ℕ) (plans : ℕ → Json)
    (execErr : ℕ → AgentAction → Option String) (b : Bool) (j : ℕ)
    (t : List Char) (hj : j < N)
    (hexec : ∀ i, i < j → planExecutable (plans i) = true)
    (hbad : plans j = Json.obj (fallbackObj t)) :
    (agent_run ⟨N, plans, execErr, fun _ => false⟩ b).map
      (fun r => (r.success, r.steps.length, r.finalMessage)) =
      some (false, j, Json.str ("无法解析AI响应")) := by
  obtain ⟨steps, hgo, hlen⟩ :=
    agentGo_fallback_stop ⟨N, plans, execErr, fun _ => false⟩ j t (fun _ => rfl)
      hbad N 0 [] (by omega) (by omega) (fun i _ h2 => hexec i h2)
  rw [agent_run, hgo]
  simp [hlen]

/-- C3 amended witness: an executable click at step 0 followed by an
unparsable plan at step 1 aborts a 3-step-budget run with exactly one
recorded step. -/
theorem unparsable_plan_aborts_run_witness :
    (agent_run ⟨3,
        fun i => if i == 0 then plan_action clickPlanText
          else plan_action badPlanText,
        fun _ _ => none, fun _ => false⟩ true).map
      (fun r => (r.success, r.steps.length, r.finalMessage)) =
      some (false, 1, Json.str ("无法解析AI响应")) :=
  unparsable_plan_aborts_run 3
    (fun i => if i == 0 then plan_action clickPlanText
      else plan_action badPlanText)
    (fun _ _ => none) true 1 badPlanText (by omega)
    (fun i hi => by
      have h0 : i = 0 := by omega
      subst h0
      rfl)
    rfl

/-- Every event produced by the retry loop for task `idx` carries `idx`. -/
theorem retryGo_events_idx (idx : ℕ) (t : STask) :
    ∀ (remaining attempt : ℕ) (lastError : Option String) (ev : SEv),
      ev ∈ (retryGo idx t lastError attempt remaining).2 → ev.taskIdx = idx := by
  intro remaining
  induction remaining with
  | zero => intro attempt le ev hev; simp [retryGo] at hev
  | succ rm ih =>
    intro attempt le ev hev
    rcases herr : t.attemptErr attempt with _ | e
    · simp [retryGo, herr] at hev
      rw [hev]; rfl
    · have hunf : (retryGo idx t le attempt (rm + 1)).2 =
          SEv.invoke idx attempt ::
            ((if rm ≠ 0 then [SEv.sleep idx t.retryDelay] else []) ++
              (retryGo idx t (some e) (attempt + 1) rm).2) := by
        simp [retryGo, herr]
      rw [hunf] at hev
      rcases List.mem_cons.mp hev with h | h
      · rw [h]; rfl
      rcases List.mem_append.mp h with h2 | h2
      · by_cases hrm : rm = 0
        · simp [hrm] at h2
        · simp only [if_pos hrm, List.mem_singleton] at h2
          rw [h2]; rfl
      · exact ih (attempt + 1) (some e) ev h2

/-- Every event produced by executing task `idx` carries `idx`. -/
theorem executeTask_events_idx (idx : ℕ) (t : STask) (ev : SEv)
    (hev : ev ∈ (executeTask idx t).2) : ev.taskIdx = idx := by
  unfold executeTask at hev
  by_cases hc : (t.hasCondition && !t.conditionVal) = true
  · simp only [hc, if_true, List.mem_singleton] at hev
    rw [hev]; rfl
  · simp only [hc, if_false, Bool.false_eq_true, List.mem_append] at hev
    rcases hev with h | h
    · by_cases hcond : t.hasCondition = true
      · simp only [hcond, if_true, List.mem_singleton] at h
        rw [h]; rfl
      · simp [hcond] at h
    · exact retryGo_events_idx idx t (t.retryCount + 1) 0 none ev h

/-- With `stop_on_error` set, a `failed` task result at position `i` is the
last result and no event belongs to a later task. -/
theorem schedGo_stop_on_error (sig : ℕ → Bool) :
    ∀ (ts : List STask) (flag : Bool) (idx i : ℕ) (r : STaskResult),
      (schedGo true sig flag idx ts).1.get? i = some r →
      r.status = TaskStatus.failed →
      (schedGo true sig flag idx ts).1.length = i + 1 ∧
        ∀ ev ∈ (schedGo true sig flag idx ts).2, ev.taskIdx ≤ idx + i := by
  intro ts
  induction ts with
  | nil => intro flag idx i r hr _; simp [schedGo] at hr
  | cons t ts ih =>
    intro flag idx i r hr hfail
    by_cases hflag : (flag || sig idx) = true
    · rw [show schedGo true sig flag idx (t :: ts) = ([], []) by
        simp [schedGo, hflag]] at hr
      simp at hr
    · have hflag' : (flag || sig idx) = false := Bool.eq_false_iff.mpr hflag
      by_cases hsucc : (executeTask idx t).1.success = true
      · have hunf : schedGo true sig flag idx (t :: ts) =
            ((executeTask idx t).1 :: (schedGo true sig false (idx + 1) ts).1,
              (executeTask idx t).2 ++ (schedGo true sig false (idx + 1) ts).2) := by
          simp [schedGo, hflag', hsucc]
        rw [hunf] at hr ⊢
        match i with
        | 0 =>
          simp only [List.get?_cons_zero, Option.some.injEq] at hr
          rw [← hr] at hfail
          rw [STaskResult.success, hfail] at hsucc
          simp at hsucc
        | i' + 1 =>
          simp only [List.get?_cons_succ] at hr
          obtain ⟨hlen, hev⟩ := ih false (idx + 1) i' r hr hfail
          constructor
          · simp [hlen]
          · intro ev hev2
            rcases List.mem_append.mp hev2 with h | h
            · have := executeTask_events_idx idx t ev h
              omega
            · have := hev ev h
              omega
      · have hunf : schedGo true sig flag idx (t :: ts) =
            ([(executeTask idx t).1], (executeTask idx t).2) := by
          simp [schedGo, hflag', hsucc]
        rw [hunf] at hr ⊢
        match i with
        | 0 =>
          refine ⟨rfl, fun ev hev => ?_⟩
          have := executeTask_events_idx idx t ev hev
          omega
        | i' + 1 => simp at hr

/-- C7: with `stop_on_error = true`, a task whose result is `failed` halts
the scheduler: its result is the last one appended (no `TaskResult` exists
for any later task) and no condition evaluation, action invocation or sleep
ever happens for a task positioned after it — later tasks never leave
`pending` (scheduler.py lines 143-153). -/
theorem stop_on_error_halts (tasks : List STask) (b : Bool) (sig : ℕ → Bool)
    (i : ℕ) (r : STaskResult)
    (hr : (scheduler_run tasks true b sig).1.get? i = some r)
    (hfail : r.status = TaskStatus.failed) :
    (scheduler_run tasks true b sig).1.length = i + 1 ∧
      ∀ ev ∈ (scheduler_run tasks true b sig).2, ev.taskIdx ≤ i := by
  obtain ⟨hlen, hev⟩ := schedGo_stop_on_error sig tasks false 0 i r hr hfail
  exact ⟨hlen, fun ev h => by have := hev ev h; omega⟩

/-- A task that always succeeds immediately. -/
def okTask : STask := ⟨"ok", false, true, 0, 1, fun _ => none, fun _ => 7⟩

/-- A task that always fails, with two retries. -/
def boomTask : STask := ⟨"boom", false, true, 2, 1, fun _ => some "boom", fun _ => 0⟩

/-- C7 witness: in `[okTask, boomTask, okTask]` with `stop_on_error`, the
failure at position 1 ends the result log at length 2, and a sample event
of the halted run belongs to a task index ≤ 1. -/
theorem stop_on_error_halts_witness :
    (scheduler_run [okTask, boomTask, okTask] true false (fun _ => false)).1.length = 2 ∧
      (SEv.invoke 1 2).taskIdx ≤ 1 := by
  have h := stop_on_error_halts [okTask, boomTask, okTask] false (fun _ => false) 1
    ⟨"boom", TaskStatus.failed, none, some "boom"⟩ rfl rfl
  exact ⟨h.1, h.2 (SEv.invoke 1 2) (by decide)⟩

/-- The confidence-descending order used by `find_all`'s sorts. -/
def confGe (a b : MatchResult) : Prop := b.confidence ≤ a.confidence

instance : DecidableRel confGe := fun a b =>
  inferInstanceAs (Decidable (b.confidence ≤ a.confidence))

instance : IsTotal MatchResult confGe :=
  ⟨fun a b => (le_total b.confidence a.confidence).elim Or.inl Or.inr⟩

instance : IsTrans MatchResult confGe :=
  ⟨fun _ _ _ hab hbc => le_trans hbc hab⟩

/-- `insertByConf` is Mathlib's ordered insertion for `confGe`. -/
theorem insertByConf_eq_orderedInsert (m : MatchResult) (l : List MatchResult) :
    insertByConf m l = List.orderedInsert confGe m l := by
  induction l with
  | nil => rfl
  | cons x xs ih => simp only [insertByConf, List.orderedInsert, confGe, ih]

/-- `sortByConfDesc` is Mathlib's insertion sort for `confGe`. -/
theorem sortByConfDesc_eq_insertionSort (l : List MatchResult) :
    sortByConfDesc l = List.insertionSort confGe l := by
  induction l with
  | nil => rfl
  | cons x xs ih =>
    simp only [sortByConfDesc, List.foldr_cons, List.insertionSort]
    rw [← ih, insertByConf_eq_orderedInsert]
    rfl

/-- The sort output is sorted by descending confidence. -/
theorem sortByConfDesc_sorted (l : List MatchResult) :
    (sortByConfDesc l).Sorted confGe := by
  rw [sortByConfDesc_eq_insertionSort]
  exact List.sorted_insertionSort confGe l

/-- Sorting an already-sorted list is the identity. -/
theorem sortByConfDesc_of_sorted {l : List MatchResult} (h : l.Sorted confGe) :
    sortByConfDesc l = l := by
  rw [sortByConfDesc_eq_insertionSort]
  exact h.insertionSort_eq

/-- The greedy suppression loop only keeps input elements. -/
theorem nmsLoop_subset (thr : ℚ) :
    ∀ (fuel : ℕ) (l : List MatchResult), ∀ x ∈ nmsLoop thr fuel l, x ∈ l := by
  intro fuel
  induction fuel with
  | zero =>
    intro l x hx
    cases l with
    | nil => simpa [nmsLoop] using hx
    | cons c rest => simpa [nmsLoop] using hx
  | succ f ih =>
    intro l x hx
    cases l with
    | nil => simpa [nmsLoop] using hx
    | cons c rest =>
      rw [nmsLoop] at hx
      rcases List.mem_cons.mp hx with h | h
      · exact h ▸ List.mem_cons_self _ _
      · exact List.mem_cons_of_mem _ (List.mem_of_mem_filter (ih _ x h))

/-- The greedy suppression loop preserves descending-confidence order. -/
theorem nmsLoop_sorted (thr : ℚ) :
    ∀ (fuel : ℕ) (l : List MatchResult), l.Sorted confGe →
      (nmsLoop thr fuel l).Sorted confGe := by
  intro fuel
  induction fuel with
  | zero =>
    intro l h
    cases l with
    | nil => simpa [nmsLoop] using h
    | cons c rest => simpa [nmsLoop] using h
  | succ f ih =>
    intro l h
    cases l with
    | nil => simpa [nmsLoop] using h
    | cons c rest =>
      rw [nmsLoop]
      rcases List.sorted_cons.mp h with ⟨hhead, htail⟩
      refine List.sorted_cons.mpr ⟨?_, ih _ (htail.sublist (List.filter_sublist _))⟩
      intro b hb
      exact hhead b (List.mem_of_mem_filter (nmsLoop_subset _ _ _ b hb))

/-- Any two elements kept by the greedy loop, in order, have IoU strictly
below the overlap threshold (given enough fuel, which `_nms` supplies). -/
theorem nmsLoop_pairwise (thr : ℚ) :
    ∀ (fuel : ℕ) (l : List MatchResult), l.length ≤ fuel →
      (nmsLoop thr fuel l).Pairwise (fun a b => iou a b < thr) := by
  intro fuel
  induction fuel with
  | zero =>
    intro l hl
    rw [List.length_eq_zero.mp (Nat.le_zero.mp hl)]
    simp [nmsLoop]
  | succ f ih =>
    intro l hl
    cases l with
    | nil => simp [nmsLoop]
    | cons c rest =>
      rw [nmsLoop]
      refine List.pairwise_cons.mpr ⟨?_, ih _ ?_⟩
      · intro b hb
        have hmem := nmsLoop_subset thr f _ b hb
        exact of_decide_eq_true ((List.mem_filter.mp hmem).2)
      · have hfl := List.length_filter_le (fun m => decide (iou c m < thr)) rest
        simp only [List.length_cons] at hl
        omega

/-- IoU is symmetric. -/
theorem iou_comm (a b : MatchResult) : iou a b = iou b a := by
  simp only [iou]
  rw [max_comm a.x b.x, max_comm a.y b.y,
    min_comm (a.x + a.width) (b.x + b.width),
    min_comm (a.y + a.height) (b.y + b.height),
    add_comm (a.width * a.height) (b.width * b.height)]

/-- At threshold 0.5 the source's keep-if-below rule and the spec's amended
discard-if-at-least rule coincide. -/
theorem nmsLoop_eq_specGe :
    ∀ (fuel : ℕ) (l : List MatchResult),
      nmsLoop overlapHalf fuel l = nmsLoopSpecGe fuel l := by
  intro fuel
  induction fuel with
  | zero => intro l; cases l <;> simp [nmsLoop, nmsLoopSpecGe]
  | succ f ih =>
    intro l
    cases l with
    | nil => simp [nmsLoop, nmsLoopSpecGe]
    | cons c rest =>
      rw [nmsLoop, nmsLoopSpecGe]
      congr 1
      rw [show (rest.filter fun m => decide (¬ (overlapHalf ≤ iou c m))) =
          rest.filter fun m => decide (iou c m < overlapHalf) from
        List.filter_congr (fun m _ => by simp [not_le])]
      exact ih _

/-- C1 counterexample: two 3-by-2 boxes offset by one pixel have IoU
exactly 0.5.  `find_all` (which keeps a candidate only when it is strictly
below the overlap threshold, i.e. discards at IoU ≥ 0.5, image.py line 244)
drops the second box, while the claimed rule — discard only when the IoU
EXCEEDS 0.5 — would keep both. -/
theorem nms_discards_iou_exactly_half :
    iou ⟨0, 0, 3, 2, mkRat 9 10⟩ ⟨1, 0, 3, 2, mkRat 8 10⟩ = mkRat 1 2 ∧
    mkRat 1 2 = (1 : ℚ) / 2 ∧
    find_all [⟨0, 0, mkRat 9 10⟩, ⟨1, 0, mkRat 8 10⟩] 3 2 (some (mkRat 1 2))
        (mkRat 8 10) 100 =
      [⟨0, 0, 3, 2, mkRat 9 10⟩] ∧
    find_all_spec_strict [⟨0, 0, mkRat 9 10⟩, ⟨1, 0, mkRat 8 10⟩] 3 2
        (some (mkRat 1 2)) (mkRat 8 10) 100 =
      [⟨0, 0, 3, 2, mkRat 9 10⟩, ⟨1, 0, 3, 2, mkRat 8 10⟩] := by
  refine ⟨of_decide_eq_true rfl, by norm_num [Rat.mkRat_eq_div],
    of_decide_eq_true rfl, of_decide_eq_true rfl⟩

/-- C1 amended: `find_all` implements greedy non-maximum suppression with
the discard rule "IoU at least 0.5" (not "exceeds 0.5"): sort candidates by
confidence descending, keep the highest-confidence remaining candidate and
discard every other candidate whose IoU with it is ≥ 0.5, truncate to
`max_results`; consequently any two distinct results in the returned list
have IoU strictly below 0.5 (in particular never exceeding it). -/
theorem find_all_nms_contract (scan : List ScanPoint) (w h : ℤ)
    (threshold : Option ℚ) (dflt : ℚ) (maxResults : ℕ) :
    find_all scan w h threshold dflt maxResults =
      find_all_spec_ge scan w h threshold dflt maxResults ∧
    (find_all scan w h threshold dflt maxResults).Pairwise
      (fun a b => iou a b < 1 / 2 ∧ iou b a < 1 / 2) := by
  have hsorted : ((nmsLoop overlapHalf
      (sortByConfDesc ((scan.filter (fun p => pyOrQ threshold dflt ≤ p.conf)).map
        (fun p => MatchResult.mk p.x p.y w h p.conf))).length
      (sortByConfDesc ((scan.filter (fun p => pyOrQ threshold dflt ≤ p.conf)).map
        (fun p => MatchResult.mk p.x p.y w h p.conf))))).Sorted confGe :=
    nmsLoop_sorted _ _ _ (sortByConfDesc_sorted _)
  constructor
  · simp only [find_all, find_all_spec_ge, nms]
    rw [sortByConfDesc_of_sorted hsorted, nmsLoop_eq_specGe]
  · simp only [find_all, nms]
    rw [sortByConfDesc_of_sorted hsorted]
    have hp := nmsLoop_pairwise overlapHalf
      (sortByConfDesc ((scan.filter (fun p => pyOrQ threshold dflt ≤ p.conf)).map
        (fun p => MatchResult.mk p.x p.y w h p.conf))).length
      (sortByConfDesc ((scan.filter (fun p => pyOrQ threshold dflt ≤ p.conf)).map
        (fun p => MatchResult.mk p.x p.y w h p.conf)))
      (le_refl _)
    refine (List.Pairwise.imp (fun {a b} hab => ?_) hp).sublist
      (List.take_sublist _ _)
    constructor
    · rw [← overlapHalf_eq]; exact hab
    · rw [iou_comm b a, ← overlapHalf_eq]; exact hab

/-- One JSON action object surrounded by leading and trailing prose. -/
def proseText : List Char :=
  ("here is the plan: \x7b\"action\": \x7b\"type\": \"click\"\x7d\x7d thanks").toList

/-- The same JSON action object, bare. -/
def bareClickText : List Char :=
  ("\x7b\"action\": \x7b\"type\": \"click\"\x7d\x7d").toList

/-- A brace-free input that is nonetheless valid JSON. -/
def noBraceText : List Char := ("true").toList

/-- C2 counterexample: `plan_action` does NOT extract the substring between
the first `{` and the last `}`.  The prose-wrapped object fails to parse and
yields the fallback error plan (not the bare object's parse, and not an
`UnparsableAction` exception), while the brace-free input `true` parses
successfully instead of failing. -/
theorem plan_parser_no_brace_substring :
    plan_action proseText = Json.obj (fallbackObj proseText) ∧
    plan_action bareClickText =
      Json.obj [("action", Json.obj [("type", Json.str "click")])] ∧
    plan_action noBraceText = Json.bool true := ⟨rfl, rfl, rfl⟩

/-- `skipWs` keeps a non-whitespace head. -/
theorem skipWs_cons_of_not_ws {c : Char} (h : isJsonWs c = false)
    (cs : List Char) : skipWs (c :: cs) = c :: cs := by
  simp [skipWs, h]

/-- A JSON parse fails when the first significant character cannot begin a
JSON value. -/
theorem parseVal_succ_none (fuel : ℕ) (l : List Char)
    (h : ∀ c cs, skipWs l = c :: cs → jsonStartChar c = false) :
    parseVal (fuel + 1) l = none := by
  rw [parseVal]
  rcases hsw : skipWs l with _ | ⟨c, rest⟩
  · rfl
  · have hc := h c rest hsw
    simp only [jsonStartChar, Bool.or_eq_false_iff, decide_eq_false_iff_not] at hc
    obtain ⟨⟨⟨⟨⟨⟨⟨hbrace, hbrk⟩, hquot⟩, ht⟩, hf⟩, hn⟩, hminus⟩, hdigit⟩ := hc
    dsimp only
    rw [if_neg hbrace, if_neg hbrk, if_neg hquot, if_neg ht, if_neg hf, if_neg hn]
    have hnum : parseNum (c :: rest) = none := by
      unfold parseNum
      have htail : parseNumTail (c :: rest) = none := by
        unfold parseNumTail
        dsimp only
        rw [if_pos (by simp [hdigit])]
      split
      · next heq =>
        exact absurd (List.head_eq_of_cons_eq heq) hminus
      · exact htail
    rw [hnum]
    rfl

/-- `json.loads` fails when the stripped text cannot begin a JSON value. -/
theorem jsonLoads_none_of_badStart (l : List Char)
    (h : ∀ c cs, skipWs l = c :: cs → jsonStartChar c = false) :
    jsonLoads l = none := by
  rw [jsonLoads]
  rcases hlen : l.length with _ | n
  · rw [List.length_eq_zero.mp hlen]
    rfl
  · rw [parseVal_succ_none (n + 1) l h]

/-- Without fence markers the fence-extraction step is the identity. -/
theorem extractContent_eq_self {t : List Char}
    (h1 : containsSeq jsonFenceSep t = false)
    (h2 : containsSeq fenceSep t = false) :
    extractContent t = t := by
  simp [extractContent, h1, h2]

/-- C2 amended: the plan parser performs no brace-substring extraction:
after fence handling it strips whitespace and parses the ENTIRE remaining
text as JSON.  When that text parses, its value is returned; when it begins
with a character that cannot begin a JSON value — in particular one JSON
object preceded by non-whitespace prose — the parse fails and the fallback
error plan is returned (an ordinary value, not an `UnparsableAction`
exception).  Brace-free input fails the same way only when it is not itself
valid JSON. -/
theorem plan_action_parses_whole_text (t : List Char)
    (h1 : containsSeq jsonFenceSep t = false)
    (h2 : containsSeq fenceSep t = false) :
    (∀ v, jsonLoads (pyStrip t) = some v → plan_action t = v) ∧
    ((∀ c cs, skipWs (pyStrip t) = c :: cs → jsonStartChar c = false) →
      plan_action t = Json.obj (fallbackObj t)) := by
  constructor
  · intro v hv
    rw [plan_action, extractContent_eq_self h1 h2, hv]
  · intro hbad
    rw [plan_action, extractContent_eq_self h1 h2,
      jsonLoads_none_of_badStart _ hbad]

/-- A second prose-wrapped plan, for the amended-claim witness. -/
def proseText2 : List Char :=
  ("Sure! \x7b\"action\": \x7b\"type\": \"wait\"\x7d\x7d Done.").toList

/-- C2 amended witness: a plan with leading prose (`Sure! ...`) yields the
fallback error plan, and the same parser applied to a fence-free valid JSON
text returns its parse. -/
theorem plan_action_parses_whole_text_witness :
    plan_action proseText2 = Json.obj (fallbackObj proseText2) ∧
    plan_action noBraceText = Json.bool true := by
  constructor
  · refine (plan_action_parses_whole_text proseText2 rfl rfl).2 ?_
    intro c cs hc
    have h' : ('S' :: ("ure! \x7b\"action\": \x7b\"type\": \"wait\"\x7d\x7d Done.").toList)
        = c :: cs := by
      rw [← hc]
      rfl
    rw [← List.head_eq_of_cons_eq h']
    rfl
  · exact (plan_action_parses_whole_text noBraceText rfl rfl).1
      (Json.bool true) rfl

/-- `containsSeq` decides substring containment. -/
theorem containsSeq_infix_iff (sep l : List Char) :
    containsSeq sep l = true ↔ sep <:+: l := by
  induction l with
  | nil =>
    simp [containsSeq, List.isPrefixOf_iff_prefix, List.infix_nil, List.prefix_nil]
  | cons c cs ih =>
    simp only [containsSeq, Bool.or_eq_true, List.isPrefixOf_iff_prefix, ih,
      List.infix_cons_iff]

/-- `containsSeq` is false exactly on non-substrings. -/
theorem containsSeq_eq_false_iff (sep l : List Char) :
    containsSeq sep l = false ↔ ¬ sep <:+: l := by
  rw [← containsSeq_infix_iff, Bool.eq_false_iff, ne_eq]

/-- Appending one element is injective in both parts. -/
theorem concat_inj {l1 l2 : List Char} {a b : Char}
    (h : l1 ++ [a] = l2 ++ [b]) : l1 = l2 ∧ a = b := by
  have hr := congrArg List.reverse h
  simp only [List.reverse_append, List.reverse_singleton, List.singleton_append,
    List.cons.injEq] at hr
  exact ⟨by
    have := hr.2
    have h2 := congrArg List.reverse this
    simpa using h2, hr.1⟩

/-- The last element of a nonempty suffix is the last element of the list. -/
theorem getLast?_of_suffix {x l : List Char} {a : Char} (hsuf : x <:+ l)
    (h : x.getLast? = some a) : l.getLast? = some a := by
  obtain ⟨u, rfl⟩ := hsuf
  rcases x with _ | ⟨b, t⟩
  · simp at h
  · rw [List.getLast?_append_of_ne_nil _ (by simp)]
    exact h

/-- A prefix of a padded list that fits in the first part is a prefix of the
first part. -/
theorem prefix_of_prefix_append_of_le {sep x t : List Char}
    (h : sep <+: x ++ t) (hlen : sep.length ≤ x.length) : sep <+: x := by
  have h1 : sep = (x ++ t).take sep.length := List.prefix_iff_eq_take.mp h
  have h3 : sep = x.take sep.length :=
    h1.trans (List.take_append_of_le_length hlen)
  simpa only [← h3] using List.take_prefix sep.length x

/-- When the first part is shorter than the prefix, the first part is a
prefix of it. -/
theorem short_front_prefix {sep x t : List Char} (h : sep <+: x ++ t)
    (hlen : x.length ≤ sep.length) : x <+: sep := by
  have h1 : sep = (x ++ t).take sep.length := List.prefix_iff_eq_take.mp h
  have h3 : x = sep.take x.length := by
    calc x = (x ++ t).take x.length := (List.take_left x t).symm
    _ = (x ++ t).take (min x.length sep.length) := by rw [min_eq_left hlen]
    _ = ((x ++ t).take sep.length).take x.length := by rw [List.take_take]
    _ = sep.take x.length := by rw [← h1]
  simpa only [← h3] using List.take_prefix x.length sep

/-- A nonempty suffix of `a ++ b` longer than `b` splits as a nonempty
suffix of `a` followed by `b`. -/
theorem suffix_append_split {x a b : List Char} (hsuf : x <:+ a ++ b)
    (hlen : b.length < x.length) :
    ∃ x', x = x' ++ b ∧ x' <:+ a ∧ x' ≠ [] := by
  have hx := List.suffix_iff_eq_drop.mp hsuf
  have hlx : x.length ≤ (a ++ b).length := hsuf.length_le
  rw [List.length_append] at hlx
  have hk : (a ++ b).length - x.length ≤ a.length := by
    rw [List.length_append]; omega
  rw [List.drop_append_of_le_length hk] at hx
  refine ⟨a.drop ((a ++ b).length - x.length), hx, List.drop_suffix _ _, ?_⟩
  intro hnil
  rw [hnil] at hx
  simp only [List.nil_append] at hx
  rw [hx] at hlen
  omega

/-- When no suffix of the input starts with the separator, `splitGo` returns
one chunk (the accumulator plus the whole input). -/
theorem splitGo_no_match (s0 : Char) (srest : List Char) :
    ∀ (l acc : List Char) (fuel : ℕ),
      (∀ x2, x2 ≠ [] → x2 <:+ l → (s0 :: srest).isPrefixOf x2 = false) →
      splitGo s0 srest acc fuel l = [acc.reverse ++ l] := by
  intro l
  induction l with
  | nil => intro acc fuel _; cases fuel <;> simp [splitGo]
  | cons c cs ih =>
    intro acc fuel h
    cases fuel with
    | zero => simp [splitGo]
    | succ f =>
      rw [splitGo]
      have hc := h (c :: cs) (by simp) (List.suffix_refl _)
      rw [if_neg (by simp [hc])]
      rw [ih (c :: acc) f
        (fun x2 hne hsuf => h x2 hne (hsuf.trans (List.suffix_cons c cs)))]
      simp

/-- When the input is `x ++ sep ++ y` and no nonempty suffix of `x` begins a
separator occurrence, `splitGo` with exactly the input's length of fuel cuts
at that separator. -/
theorem splitGo_boundary (s0 : Char) (srest : List Char) :
    ∀ (x acc y : List Char),
      (∀ x2, x2 ≠ [] → x2 <:+ x →
        (s0 :: srest).isPrefixOf (x2 ++ ((s0 :: srest) ++ y)) = false) →
      splitGo s0 srest acc (x ++ ((s0 :: srest) ++ y)).length
          (x ++ ((s0 :: srest) ++ y)) =
        (acc.reverse ++ x) :: splitGo s0 srest [] (srest.length + y.length) y := by
  intro x
  induction x with
  | nil =>
    intro acc y _
    simp only [List.nil_append]
    rw [show ((s0 :: srest) ++ y).length = (srest ++ y).length + 1 by simp,
      show (s0 :: srest) ++ y = s0 :: (srest ++ y) from rfl]
    rw [splitGo]
    rw [if_pos (List.isPrefixOf_iff_prefix.mpr
      (show (s0 :: srest) <+: s0 :: (srest ++ y) by
        rw [show s0 :: (srest ++ y) = (s0 :: srest) ++ y from rfl]
        exact List.prefix_append _ _))]
    rw [List.drop_left]
    rw [show (srest ++ y).length = srest.length + y.length by simp]
    simp
  | cons c x' ih =>
    intro acc y h
    have hc := h (c :: x') (by simp) (List.suffix_refl _)
    simp only [List.cons_append] at hc ⊢
    simp only [List.length_cons]
    rw [splitGo]
    rw [if_neg (by simp [hc])]
    have ih' := ih (c :: acc) y
      (fun x2 hne hsuf => h x2 hne (hsuf.trans (List.suffix_cons c x')))
    simp only [List.cons_append] at ih'
    rw [ih']
    simp

/-- A fence occurrence inside `'\n' :: s ++ ['\n']` lies inside `s`: the
newline guards prevent it from touching either end. -/
theorem fence_infix_of_mid {s : List Char}
    (h : fenceSep <:+: ('\n' :: (s ++ ['\n']))) : fenceSep <:+: s := by
  obtain ⟨u, v, huv⟩ := h
  cases u with
  | nil =>
    simp only [List.nil_append, show fenceSep = '`' :: ['`', '`'] from rfl,
      List.cons_append, List.cons.injEq] at huv
    exact absurd huv.1 (by decide)
  | cons c u' =>
    simp only [List.cons_append, List.cons.injEq] at huv
    obtain ⟨hc, htail⟩ := huv
    rcases List.eq_nil_or_concat' v with hv | ⟨v', cv, hv⟩
    · rw [hv, List.append_nil] at htail
      have h1 : (u' ++ fenceSep).getLast? = some '`' := by
        rw [List.getLast?_append_of_ne_nil _ (by decide)]
        rfl
      rw [htail, List.getLast?_concat] at h1
      simp at h1
    · rw [hv] at htail
      have hconcat : (u' ++ fenceSep ++ v') ++ [cv] = s ++ ['\n'] := by
        rw [← htail]
        simp [List.append_assoc]
      obtain ⟨heq, _⟩ := concat_inj hconcat
      exact ⟨u', v', heq⟩

/-- When `s` carries no fence, no nonempty suffix of `'\n' :: s ++ ['\n']`
begins a fence occurrence, whatever follows it. -/
theorem fence_prefix_false_of_mid_suffix {s : List Char}
    (hs : ¬ fenceSep <:+: s) (x2 t : List Char) (hne : x2 ≠ [])
    (hsuf : x2 <:+ ('\n' :: (s ++ ['\n']))) :
    fenceSep.isPrefixOf (x2 ++ t) = false := by
  by_contra hb
  have hb' : fenceSep.isPrefixOf (x2 ++ t) = true := by
    revert hb
    cases fenceSep.isPrefixOf (x2 ++ t) <;> simp
  have hp : fenceSep <+: x2 ++ t := List.isPrefixOf_iff_prefix.mp hb'
  by_cases hlen : 3 ≤ x2.length
  · have hpre : fenceSep <+: x2 := prefix_of_prefix_append_of_le hp hlen
    exact hs (fence_infix_of_mid ((hpre.isInfix).trans hsuf.isInfix))
  · have hxf : x2 <+: fenceSep := short_front_prefix hp (by
      show x2.length ≤ fenceSep.length
      simp only [show fenceSep.length = 3 from rfl]
      omega)
    have hrep : x2 = List.replicate x2.length '`' := by
      have hx := List.prefix_iff_eq_take.mp hxf
      have hlen' : x2.length ≤ 3 := by omega
      calc x2 = fenceSep.take x2.length := hx
      _ = (List.replicate 3 '`').take x2.length := rfl
      _ = List.replicate (min x2.length 3) '`' := List.take_replicate _ _ _
      _ = List.replicate x2.length '`' := by rw [min_eq_left hlen']
    have hlast1 : x2.getLast? = some '`' := by
      rw [hrep]
      rcases hx2l : x2.length with _ | n
      · exact absurd (List.length_eq_zero.mp hx2l) hne
      · rw [List.replicate_succ', List.getLast?_concat]
    have hlast2 : ('\n' :: (s ++ ['\n'])).getLast? = some '`' :=
      getLast?_of_suffix hsuf hlast1
    have hlast3 : ('\n' :: (s ++ ['\n'])).getLast? = some '\n' := by
      rw [show '\n' :: (s ++ ['\n']) = ('\n' :: s) ++ ['\n'] from rfl,
        List.getLast?_concat]
    rw [hlast2] at hlast3
    simp at hlast3

/-- When `s` carries no fence, no suffix of the wrapped body
`'\n' :: s ++ ['\n']` followed by the closing fence begins a
```` ```json ```` occurrence. -/
theorem jsonfence_prefix_false_of_body_suffix {s : List Char}
    (hs : ¬ fenceSep <:+: s) (x2 : List Char)
    (hsuf : x2 <:+ ('\n' :: (s ++ ['\n'])) ++ fenceSep) :
    jsonFenceSep.isPrefixOf x2 = false := by
  by_contra hb
  have hb' : jsonFenceSep.isPrefixOf x2 = true := by
    revert hb
    cases jsonFenceSep.isPrefixOf x2 <;> simp
  have hp : jsonFenceSep <+: x2 := List.isPrefixOf_iff_prefix.mp hb'
  have hlen : 7 ≤ x2.length := by
    have := hp.length_le
    simpa using this
  obtain ⟨x2', hx2, hsuf', hne⟩ := suffix_append_split hsuf (by
    show fenceSep.length < x2.length
    simp only [show fenceSep.length = 3 from rfl]
    omega)
  have hfp : fenceSep <+: x2' ++ fenceSep := by
    have hfj : fenceSep <+: jsonFenceSep := ⟨("json").toList, rfl⟩
    have := hfj.trans hp
    rwa [hx2] at this
  have hfalse := fence_prefix_false_of_mid_suffix hs x2' fenceSep hne hsuf'
  have htrue : fenceSep.isPrefixOf (x2' ++ fenceSep) = true :=
    List.isPrefixOf_iff_prefix.mpr hfp
  rw [hfalse] at htrue
  simp at htrue

/-- Stripping undoes the newline padding that the markdown wrap inserts. -/
theorem pyStrip_newline_wrap (s : List Char) :
    pyStrip ('\n' :: (s ++ ['\n'])) = pyStrip s := by
  unfold pyStrip
  rw [List.dropWhile_cons, if_pos (show isPyWs '\n' = true from rfl),
    List.dropWhile_append]
  rcases hds : s.dropWhile isPyWs with _ | ⟨c, cs⟩
  · decide
  · simp only [List.isEmpty_cons, Bool.false_eq_true, if_false,
      List.reverse_append, List.reverse_cons, List.reverse_nil,
      List.nil_append, List.singleton_append, List.dropWhile_cons,
      if_pos (show isPyWs '\n' = true from rfl)]

/-- The markdown wrapping ```` ```json\n<s>\n``` ```` of a plan text. -/
def wrapJsonFence (s : List Char) : List Char :=
  jsonFenceSep ++ (('\n' :: (s ++ ['\n'])) ++ fenceSep)

/-- Fence extraction recovers the newline-padded body from the wrap when
the body itself is fence-free. -/
theorem extract_of_wrapped {s : List Char} (hs : containsSeq fenceSep s = false) :
    extractContent (wrapJsonFence s) = '\n' :: (s ++ ['\n']) := by
  have hs' : ¬ fenceSep <:+: s := (containsSeq_eq_false_iff _ _).mp hs
  have hcontains : containsSeq jsonFenceSep (wrapJsonFence s) = true :=
    (containsSeq_infix_iff _ _).mpr ⟨[], ('\n' :: (s ++ ['\n'])) ++ fenceSep, by
      simp [wrapJsonFence]⟩
  have hsplit1 : pySplit jsonFenceSep (wrapJsonFence s) =
      [[], ('\n' :: (s ++ ['\n'])) ++ fenceSep] := by
    show splitGo '`' (("``json").toList) [] (wrapJsonFence s).length (wrapJsonFence s) =
      [[], ('\n' :: (s ++ ['\n'])) ++ fenceSep]
    have h1 := splitGo_boundary '`' (("``json").toList) [] []
      (('\n' :: (s ++ ['\n'])) ++ fenceSep)
      (by intro x2 hne hsuf; exact absurd (List.suffix_nil.mp hsuf) hne)
    simp only [List.nil_append, List.reverse_nil] at h1
    rw [show wrapJsonFence s =
      ('`' :: ("``json").toList) ++ (('\n' :: (s ++ ['\n'])) ++ fenceSep) from rfl]
    rw [h1]
    rw [splitGo_no_match '`' (("``json").toList) _ [] _
      (fun x2 hne hsuf => jsonfence_prefix_false_of_body_suffix hs' x2 hsuf)]
    simp
  have hsplit2 : pySplit fenceSep (('\n' :: (s ++ ['\n'])) ++ fenceSep) =
      [('\n' :: (s ++ ['\n'])), []] := by
    have h2 := splitGo_boundary '`' (("``").toList) ('\n' :: (s ++ ['\n'])) [] []
      (by
        intro x2 hne hsuf
        exact fence_prefix_false_of_mid_suffix hs' x2 (fenceSep ++ []) hne hsuf)
    simp only [List.append_nil, List.reverse_nil, List.nil_append,
      List.cons_append, List.append_assoc] at h2
    show splitGo '`' (("``").toList) []
      ((('\n' :: (s ++ ['\n'])) ++ fenceSep).length)
      (('\n' :: (s ++ ['\n'])) ++ fenceSep) = _
    simp only [List.cons_append, List.append_assoc, List.nil_append,
      show fenceSep = '`' :: ("``").toList from rfl]
    rw [h2]
    rfl
  rw [extractContent, if_pos hcontains, hsplit1]
  show (pySplit fenceSep (('\n' :: (s ++ ['\n'])) ++ fenceSep)).headD [] = _
  rw [hsplit2]
  rfl

/-- C8 amended: wrapping a JSON action text in a fenced code block with a
`json` language tag yields the same parsed plan as the bare text, PROVIDED
the text itself contains no fence marker ```` ``` ```` (the counterexample
shows the equivalence fails otherwise): the parser extracts the content
between the first ```` ```json ```` and the next ```` ``` ````, strips the
padding whitespace, and parses the same JSON. -/
theorem fenced_json_roundtrip (s : List Char)
    (hfence : containsSeq fenceSep s = false)
    (hok : (jsonLoads (pyStrip s)).isSome = true) :
    plan_action (wrapJsonFence s) = plan_action s := by
  have hs' : ¬ fenceSep <:+: s := (containsSeq_eq_false_iff _ _).mp hfence
  have hjf : containsSeq jsonFenceSep s = false := by
    rw [containsSeq_eq_false_iff]
    intro hinf
    exact hs'
      ((show fenceSep <+: jsonFenceSep from ⟨("json").toList, rfl⟩).isInfix.trans hinf)
  obtain ⟨v, hv⟩ := Option.isSome_iff_exists.mp hok
  simp only [plan_action, extract_of_wrapped hfence,
    extractContent_eq_self hjf hfence, pyStrip_newline_wrap, hv]

/-- A JSON action object whose `note` string itself contains fence
markers. -/
def fencedNoteJson : List Char :=
  ("\x7b\"action\": \x7b\"type\": \"click\"\x7d, \"note\": \"``` \x7b\x7d ```\"\x7d").toList

set_option maxHeartbeats 2000000 in
/-- C8 counterexample: `fencedNoteJson` is a valid JSON action object, yet
`plan_action` does not parse it to that object bare (its embedded fence
hijacks the `elif` fence branch, extracting `\x7b\x7d`), and wrapping it in
a ```` ```json ```` fence yields the fallback error plan instead — so the
wrapped parse differs from the bare parse, refuting the claim for texts
containing fence markers. -/
theorem fenced_wrap_not_transparent :
    jsonLoads fencedNoteJson =
      some (Json.obj [("action", Json.obj [("type", Json.str "click")]),
        ("note", Json.str ("``` \x7b\x7d ```"))]) ∧
    plan_action fencedNoteJson = Json.obj [] ∧
    plan_action (wrapJsonFence fencedNoteJson) =
      Json.obj (fallbackObj (wrapJsonFence fencedNoteJson)) := by
  refine ⟨by rfl, ?_, ?_⟩
  · have e1 : containsSeq jsonFenceSep fencedNoteJson = false := by decide
    have e2 : containsSeq fenceSep fencedNoteJson = true := by decide
    have e3 : pySplit fenceSep fencedNoteJson =
        [("\x7b\"action\": \x7b\"type\": \"click\"\x7d, \"note\": \"").toList,
          (" \x7b\x7d ").toList, ("\"\x7d").toList] := by decide
    have e4 : pySplit fenceSep ((" \x7b\x7d ").toList) =
        [(" \x7b\x7d ").toList] := by decide
    have e5 : pyStrip ((" \x7b\x7d ").toList) = ("\x7b\x7d").toList := by decide
    rw [plan_action, extractContent, e1, e2]
    simp only [Bool.false_eq_true, if_false, if_true]
    rw [e3]
    show (match jsonLoads (pyStrip ((pySplit fenceSep ((" \x7b\x7d ").toList)).headD []))
      with
      | some v => v
      | none => Json.obj (fallbackObj fencedNoteJson)) = Json.obj []
    rw [e4]
    show (match jsonLoads (pyStrip ((" \x7b\x7d ").toList)) with
      | some v => v
      | none => Json.obj (fallbackObj fencedNoteJson)) = Json.obj []
    rw [e5]
    rfl
  · have w1 : containsSeq jsonFenceSep (wrapJsonFence fencedNoteJson) = true := by
      decide
    have w2 : pySplit jsonFenceSep (wrapJsonFence fencedNoteJson) =
        [[], ("\n\x7b\"action\": \x7b\"type\": \"click\"\x7d, \"note\": \"``` \x7b\x7d ```\"\x7d\n```").toList] := by
      decide
    have w3 : pySplit fenceSep
        (("\n\x7b\"action\": \x7b\"type\": \"click\"\x7d, \"note\": \"``` \x7b\x7d ```\"\x7d\n```").toList) =
        [("\n\x7b\"action\": \x7b\"type\": \"click\"\x7d, \"note\": \"").toList,
          (" \x7b\x7d ").toList, ("\"\x7d\n").toList, []] := by decide
    have w4 : pyStrip
        (("\n\x7b\"action\": \x7b\"type\": \"click\"\x7d, \"note\": \"").toList) =
        ("\x7b\"action\": \x7b\"type\": \"click\"\x7d, \"note\": \"").toList := by
      decide
    rw [plan_action, extractContent, w1]
    simp only [if_true]
    rw [w2]
    show (match jsonLoads (pyStrip ((pySplit fenceSep
        (("\n\x7b\"action\": \x7b\"type\": \"click\"\x7d, \"note\": \"``` \x7b\x7d ```\"\x7d\n```").toList)).headD []))
      with
      | some v => v
      | none => Json.obj (fallbackObj (wrapJsonFence fencedNoteJson))) =
      Json.obj (fallbackObj (wrapJsonFence fencedNoteJson))
    rw [w3]
    show (match jsonLoads (pyStrip
        (("\n\x7b\"action\": \x7b\"type\": \"click\"\x7d, \"note\": \"").toList))
      with
      | some v => v
      | none => Json.obj (fallbackObj (wrapJsonFence fencedNoteJson))) =
      Json.obj (fallbackObj (wrapJsonFence fencedNoteJson))
    rw [w4]
    rw [show jsonLoads
      (("\x7b\"action\": \x7b\"type\": \"click\"\x7d, \"note\": \"").toList) = none
      from by rfl]

/-- C8 amended witness: a fence-free click plan parses identically bare and
wrapped. -/
theorem fenced_json_roundtrip_witness :
    plan_action (wrapJsonFence bareClickText) = plan_action bareClickText :=
  fenced_json_roundtrip bareClickText rfl rfl
